import Mathlib

/-!
Verification of the rules engine of the `sequence` repository.

The development shallowly embeds the core of `ncseq/game.py` (positions,
cards, the fixed 10x10 board layout, chips, the sequence catalog, move
enumeration, chip placement and removal, lock evaluation, sequence
filtering, win-set resolution) and the AI evaluator's
`sequence_completion` function (identical in `sequence.py` and
`ncseq/__main__.py`).

Python's mutable 10x10 list-of-lists of chips is embedded as a total
function from positions to optional chips; chip mutation becomes a
functional update.  Python exceptions (`IllegalMove`) become the `Except`
monad.  Python's lazy generators become eagerly computed lists; the
sequences of the catalog, built as Python `set`s of five distinct
positions, are embedded as the five-element lists in generation order
(every consumer of a sequence in the source is insensitive to the
iteration order of the set, and genuinely set-typed operations such as
`len(a & b)` are embedded through `List.toFinset`).
-/

/-- A board position `(row, column)`. -/
abbrev Pos := Nat × Nat

/-- A cell of the fixed layout: the corner marker `CORN` or a card label. -/
inductive BoardCell where
  | corn : BoardCell
  | card : String → BoardCell
deriving DecidableEq, Repr

/-- `TeamColor` from the source; teams are identified by their color. -/
inductive TeamColor where
  | blue : TeamColor
  | green : TeamColor
  | red : TeamColor
deriving DecidableEq, Repr

/-- Teams are compared by identity in the source; the color enum is a
faithful identity type for up to the three supported teams. -/
abbrev Team := TeamColor

/-- `ONE_EYEDS = ["JS", "JH"]`. -/
def ONE_EYEDS : List String := ["JS", "JH"]

/-- `TWO_EYEDS = ["JC", "JD"]`. -/
def TWO_EYEDS : List String := ["JC", "JD"]

/-- A chip: its owning team and its lock (`_flipped`) flag. -/
structure Chip where
  team : Team
  flipped : Bool
deriving DecidableEq, Repr

/-- `MoveType` from the source. -/
inductive MoveType where
  | PLACE_CHIP : MoveType
  | REMOVE_CHIP : MoveType
deriving DecidableEq, Repr

/-- A move `(card, action, pos)` as yielded by `iter_moves`. -/
abbrev Move := String × MoveType × Pos

/-- The fixed `Board.positions` layout table of the source, row by row. -/
def boardPositions : List (List BoardCell) := [
  [.corn, .card "6D", .card "7D", .card "8D", .card "9D", .card "XD",
   .card "QD", .card "KD", .card "AD", .corn],
  [.card "5D", .card "3H", .card "2H", .card "2S", .card "3S", .card "4S",
   .card "5S", .card "6S", .card "7S", .card "AC"],
  [.card "4D", .card "4H", .card "KD", .card "AD", .card "AC", .card "KC",
   .card "QC", .card "XC", .card "8S", .card "KC"],
  [.card "3D", .card "5H", .card "QD", .card "QH", .card "XH", .card "9H",
   .card "8H", .card "9C", .card "9S", .card "QC"],
  [.card "2D", .card "6H", .card "XD", .card "KH", .card "3H", .card "2H",
   .card "7H", .card "8C", .card "XS", .card "XC"],
  [.card "AS", .card "7H", .card "9D", .card "AH", .card "4H", .card "5H",
   .card "6H", .card "7C", .card "QS", .card "9C"],
  [.card "KS", .card "8H", .card "8D", .card "2C", .card "3C", .card "4C",
   .card "5C", .card "6C", .card "KS", .card "8C"],
  [.card "QS", .card "9H", .card "7D", .card "6D", .card "5D", .card "4D",
   .card "3D", .card "2D", .card "AS", .card "7C"],
  [.card "XS", .card "XH", .card "QH", .card "KH", .card "AH", .card "2C",
   .card "3C", .card "4C", .card "5C", .card "6C"],
  [.corn, .card "9S", .card "8S", .card "7S", .card "6S", .card "5S",
   .card "4S", .card "3S", .card "2S", .corn]]

/-- The fixed card of the layout at a position (first component of
`Board.getpos`).  Out-of-range positions, which the source guards with
assertions, default to the corner marker. -/
def posCard (p : Pos) : BoardCell :=
  (boardPositions.getD p.1 []).getD p.2 BoardCell.corn

/-- The mutable game state: the chip occupancy of the grid
(`Board.chips` in the source). -/
structure Board where
  chips : Pos → Option Chip

/-- The chip at a position (second component of `Board.getpos`). -/
def Board.chipAt (b : Board) (p : Pos) : Option Chip := b.chips p

/-- `Board.getpos`: the pair of fixed card and current chip. -/
def Board.getpos (b : Board) (p : Pos) : BoardCell × Option Chip :=
  (posCard p, b.chipAt p)

/-- Writing a cell of the chip grid (`self.chips[row][column] = v`). -/
def Board.setChip (b : Board) (p : Pos) (v : Option Chip) : Board :=
  ⟨fun q => if q = p then v else b.chips q⟩

/-- The empty grid a fresh board starts with. -/
def emptyBoard : Board := ⟨fun _ => none⟩

/-- `iter_pos`: all positions, row-major. -/
def iter_pos : List Pos :=
  (List.range 10).flatMap fun row => (List.range 10).map fun col => (row, col)

/-- `hrsequence`: the horizontal run starting at `(row, column)`. -/
def hrsequence (row column : Nat) : List Pos :=
  (List.range 5).map fun n => (row, column + n)

/-- `vdsequence`: the vertical (downward) run starting at `(row, column)`. -/
def vdsequence (row column : Nat) : List Pos :=
  (List.range 5).map fun n => (row + n, column)

/-- `ddsequence`: the diagonal-down-right run starting at `(row, column)`. -/
def ddsequence (row column : Nat) : List Pos :=
  (List.range 5).map fun n => (row + n, column + n)

/-- `dusequence`: the diagonal-up-right run starting at `(row, column)`. -/
def dusequence (row column : Nat) : List Pos :=
  (List.range 5).map fun n => (row - n, column + n)

/-- `iter_all_sequences`: the catalog, each generator over its restricted
input grid (`sequence_gen_restrict`): horizontal over rows 0-9 and
columns 0-5, vertical over rows 0-5 and columns 0-9, diagonal-down over
rows 0-5 and columns 0-5, diagonal-up over rows 4-9 and columns 0-5. -/
def iter_all_sequences : List (List Pos) :=
  ((List.range 10).flatMap fun row => (List.range 6).map fun col => hrsequence row col) ++
  ((List.range 6).flatMap fun row => (List.range 10).map fun col => vdsequence row col) ++
  ((List.range 6).flatMap fun row => (List.range 6).map fun col => ddsequence row col) ++
  ((List.range' 4 6).flatMap fun row => (List.range 6).map fun col => dusequence row col)

/-- `iter_corner_sequences`: the twelve listed corner runs. -/
def iter_corner_sequences : List (List Pos) :=
  [hrsequence 0 0, vdsequence 0 0, ddsequence 0 0,
   hrsequence 0 5, vdsequence 0 9, dusequence 4 5,
   hrsequence 9 0, vdsequence 5 0, dusequence 9 0,
   hrsequence 9 5, vdsequence 5 9, ddsequence 5 5]

/-- The `removal_moves` generator inside `Board.iter_moves`. -/
def Board.removal_moves (b : Board) (card : String) (team : Team) : List Move :=
  iter_pos.filterMap fun pos =>
    match b.chipAt pos with
    | none => none
    | some chip =>
      if chip.team ≠ team ∧ chip.flipped = false then
        some (card, MoveType.REMOVE_CHIP, pos)
      else none

/-- The `place_moves` generator inside `Board.iter_moves`. -/
def Board.place_moves (b : Board) (card : String) : List Move :=
  iter_pos.filterMap fun pos =>
    match b.chipAt pos with
    | some _ => none
    | none =>
      if posCard pos = BoardCell.corn then none
      else if posCard pos = BoardCell.card card ∨ card ∈ TWO_EYEDS ∨ card = "JJ" then
        some (card, MoveType.PLACE_CHIP, pos)
      else none

/-- `Board.iter_moves`: removal moves for one-eyed Jacks and the Joker,
then placement moves for everything that is not a one-eyed Jack. -/
def Board.iter_moves (b : Board) (card : String) (team : Team) : List Move :=
  (if card ∈ ONE_EYEDS ∨ card = "JJ" then b.removal_moves card team else []) ++
  (if card ∉ ONE_EYEDS then b.place_moves card else [])

/-- The completeness walk of `Board.update_sequences`: `winning_team`
accumulates the owner seen so far; a corner is skipped, an empty
non-corner cell or an owner clash ends the walk incomplete. -/
def Board.seqWinnerGo (b : Board) : List Pos → Option Team → Bool
  | [], _ => true
  | pos :: rest, winning_team =>
    match b.getpos pos with
    | (BoardCell.corn, _) => b.seqWinnerGo rest winning_team
    | (_, none) => false
    | (_, some chip) =>
      match winning_team with
      | some t => if t ≠ chip.team then false else b.seqWinnerGo rest (some chip.team)
      | none => b.seqWinnerGo rest (some chip.team)

/-- One cell of the flipping pass of `Board.update_sequences`: an
unflipped chip at `pos` is flipped (`chip.flip()`), anything else is left
alone. -/
def Board.flipAt (b : Board) (pos : Pos) : Board :=
  match b.chipAt pos with
  | none => b
  | some chip =>
    if chip.flipped then b else b.setChip pos (some ⟨chip.team, true⟩)

/-- The flipping pass of `Board.update_sequences` over one complete
sequence: every unflipped chip among its positions is flipped. -/
def Board.flipSeq (b : Board) (seq : List Pos) : Board :=
  seq.foldl Board.flipAt b

/-- `Board.update_sequences`: walk the catalog (`iter_sequences` with no
filters yields exactly `iter_all_sequences`, see
`iter_sequences_no_filters`), flipping the chips of every complete
sequence. -/
def Board.update_sequences (b : Board) : Board :=
  iter_all_sequences.foldl (fun bb seq =>
    if bb.seqWinnerGo seq none then bb.flipSeq seq else bb) b

/-- `Board.put_chip`. -/
def Board.put_chip (b : Board) (card : String) (pos : Pos) (team : Team) :
    Except String Board :=
  if posCard pos = BoardCell.corn then
    .error "Cannot play on the corners."
  else if card ∈ ONE_EYEDS then
    .error "One-eyed jacks cannot be used to play a chip."
  else if (b.chipAt pos).isSome then
    .error "There is already a chip here."
  else if ¬(card ∈ TWO_EYEDS ∨ card = "JJ") ∧ BoardCell.card card ≠ posCard pos then
    .error "This card cannot be played on this cell."
  else
    .ok ((b.setChip pos (some ⟨team, false⟩)).update_sequences)

/-- `Board.remove_chip`. -/
def Board.remove_chip (b : Board) (card : String) (pos : Pos) (team : Team) :
    Except String Board :=
  match b.chipAt pos with
  | none => .error "There is no chip here to remove."
  | some chip =>
    if chip.flipped then
      .error "You cannot remove chips in a sequence."
    else if chip.team = team then
      .error "You cannot remove your own chips."
    else if card ≠ "JJ" ∧ card ∉ ONE_EYEDS then
      .error "This card cannot be used to remove chips."
    else
      .ok (b.setChip pos none)

/-- The `non_corner_extension` filter of `Board.iter_sequences`: a
sequence passes unless it shares exactly 4 cells with a corner run. -/
def non_corner_extension (seq : List Pos) : Bool :=
  iter_corner_sequences.all fun cseq =>
    !((seq.toFinset ∩ cseq.toFinset).card = 4 : Bool)

/-- The `possible` filter's walk of `Board.iter_sequences`: a chip of
another team is tolerated while it is unflipped and hypothetical
one-eyed budget remains, one unit per such chip. -/
def Board.possibleGo (b : Board) (team : Team) : List Pos → Nat → Bool
  | [], _ => true
  | pos :: rest, one_eyeds_have =>
    match b.chipAt pos with
    | none => b.possibleGo team rest one_eyeds_have
    | some chip =>
      if chip.team ≠ team then
        if one_eyeds_have > 0 ∧ chip.flipped = false then
          b.possibleGo team rest (one_eyeds_have - 1)
        else false
      else b.possibleGo team rest one_eyeds_have

/-- `Board.iter_sequences`: the catalog filtered by the requested
predicates (a filter the source does not install is the constant-true
branch here). -/
def Board.iter_sequences (b : Board) (exclude_corner_extensions : Bool)
    (exclude_impossible_for_team : Option Team) (one_eyeds_to_make_possible : Nat)
    (includes_positions : List Pos) : List (List Pos) :=
  iter_all_sequences.filter fun seq =>
    (if exclude_corner_extensions then non_corner_extension seq else true) &&
    (match exclude_impossible_for_team with
     | some team => b.possibleGo team seq one_eyeds_to_make_possible
     | none => true) &&
    includes_positions.all fun pos => decide (pos ∈ seq)

/-- The inner walk of `Board.get_winning_sequences_for_team`: every
non-corner member holds a flipped chip of `team`. -/
def Board.seqLockedFor (b : Board) (team : Team) (seq : List Pos) : Bool :=
  seq.all fun pos =>
    match b.getpos pos with
    | (BoardCell.corn, _) => true
    | (_, none) => false
    | (_, some chip) => decide (chip.team = team) && chip.flipped

/-- `Board.get_winning_sequences_for_team`: the greedy catalog-order
selection of fully locked team-owned sequences, skipping a sequence that
shares more than one cell with one already selected. -/
def Board.get_winning_sequences_for_team (b : Board) (team : Team) :
    List (List Pos) :=
  (b.iter_sequences false none 0 []).foldl (fun winning_sequences seq =>
    if winning_sequences.any fun w => (w.toFinset ∩ seq.toFinset).card > 1 then
      winning_sequences
    else if b.seqLockedFor team seq then winning_sequences ++ [seq]
    else winning_sequences) []

/-- The accumulator walk of `sequence_completion` (identical in
`sequence.py` and `ncseq/__main__.py`): `(completion, one-eyeds
required, shared-locked-chip-seen)`. -/
def sequence_completion_go (b : Board) (team : Team) :
    List Pos → Nat → Nat → Bool → Option (Nat × Nat)
  | [], completion, one_eyeds_required, _ => some (completion, one_eyeds_required)
  | pos :: rest, completion, one_eyeds_required, shared =>
    match b.getpos pos with
    | (BoardCell.corn, _) =>
      sequence_completion_go b team rest (completion + 1) one_eyeds_required shared
    | (_, none) =>
      sequence_completion_go b team rest completion one_eyeds_required shared
    | (_, some chip) =>
      if chip.flipped then
        if chip.team = team ∧ shared = false then
          sequence_completion_go b team rest (completion + 1) one_eyeds_required true
        else none
      else if chip.team = team then
        sequence_completion_go b team rest (completion + 1) one_eyeds_required shared
      else
        sequence_completion_go b team rest completion (one_eyeds_required + 1) shared

/-- `sequence_completion`: `none` embeds the Python `(None, None)`. -/
def sequence_completion (seq : List Pos) (b : Board) (team : Team) :
    Option (Nat × Nat) :=
  sequence_completion_go b team seq 0 0 false

/-! ### Basic lemmas about positions and the chip grid -/

theorem mem_iter_pos (p : Pos) : p ∈ iter_pos ↔ p.1 < 10 ∧ p.2 < 10 := by
  simp only [iter_pos, List.mem_flatMap, List.mem_map, List.mem_range]
  constructor
  · rintro ⟨r, hr, c, hc, rfl⟩; exact ⟨hr, hc⟩
  · rintro ⟨h1, h2⟩; exact ⟨p.1, h1, p.2, h2, rfl⟩

theorem chipAt_setChip (b : Board) (p q : Pos) (v : Option Chip) :
    (b.setChip p v).chipAt q = if q = p then v else b.chipAt q := rfl

/-! ### Membership in the move generators -/

theorem mem_removal_moves {b : Board} {card : String} {team : Team} {m : Move} :
    m ∈ b.removal_moves card team ↔
      ∃ pos, pos.1 < 10 ∧ pos.2 < 10 ∧
        (∃ chip, b.chipAt pos = some chip ∧ chip.team ≠ team ∧ chip.flipped = false) ∧
        m = (card, MoveType.REMOVE_CHIP, pos) := by
  simp only [Board.removal_moves, List.mem_filterMap, mem_iter_pos]
  constructor
  · rintro ⟨pos, ⟨h1, h2⟩, hf⟩
    refine ⟨pos, h1, h2, ?_⟩
    cases h : b.chipAt pos with
    | none => simp [h] at hf
    | some chip =>
      simp only [h] at hf
      by_cases hc : chip.team ≠ team ∧ chip.flipped = false
      · rw [if_pos hc] at hf
        simp only [Option.some.injEq] at hf
        exact ⟨⟨chip, rfl, hc⟩, hf.symm⟩
      · rw [if_neg hc] at hf; simp at hf
  · rintro ⟨pos, h1, h2, ⟨chip, hchip, hc⟩, rfl⟩
    refine ⟨pos, ⟨h1, h2⟩, ?_⟩
    simp only [hchip]
    rw [if_pos hc]

theorem mem_place_moves {b : Board} {card : String} {m : Move} :
    m ∈ b.place_moves card ↔
      ∃ pos, pos.1 < 10 ∧ pos.2 < 10 ∧ b.chipAt pos = none ∧
        posCard pos ≠ BoardCell.corn ∧
        (posCard pos = BoardCell.card card ∨ card ∈ TWO_EYEDS ∨ card = "JJ") ∧
        m = (card, MoveType.PLACE_CHIP, pos) := by
  simp only [Board.place_moves, List.mem_filterMap, mem_iter_pos]
  constructor
  · rintro ⟨pos, ⟨h1, h2⟩, hf⟩
    refine ⟨pos, h1, h2, ?_⟩
    cases h : b.chipAt pos with
    | some chip => simp [h] at hf
    | none =>
      simp only [h] at hf
      by_cases hcorn : posCard pos = BoardCell.corn
      · rw [if_pos hcorn] at hf; simp at hf
      · rw [if_neg hcorn] at hf
        by_cases hok : posCard pos = BoardCell.card card ∨ card ∈ TWO_EYEDS ∨ card = "JJ"
        · rw [if_pos hok] at hf
          simp only [Option.some.injEq] at hf
          exact ⟨rfl, hcorn, hok, hf.symm⟩
        · rw [if_neg hok] at hf; simp at hf
  · rintro ⟨pos, h1, h2, hchip, hcorn, hok, rfl⟩
    refine ⟨pos, ⟨h1, h2⟩, ?_⟩
    simp only [hchip]
    rw [if_neg hcorn, if_pos hok]

theorem mem_iter_moves_iff (b : Board) (card : String) (team : Team) (m : Move) :
    m ∈ b.iter_moves card team ↔
      ((card ∈ ONE_EYEDS ∨ card = "JJ") ∧
        ∃ pos, pos.1 < 10 ∧ pos.2 < 10 ∧
          (∃ chip, b.chipAt pos = some chip ∧ chip.team ≠ team ∧ chip.flipped = false) ∧
          m = (card, MoveType.REMOVE_CHIP, pos)) ∨
      (card ∉ ONE_EYEDS ∧
        ∃ pos, pos.1 < 10 ∧ pos.2 < 10 ∧ b.chipAt pos = none ∧
          posCard pos ≠ BoardCell.corn ∧
          (posCard pos = BoardCell.card card ∨ card ∈ TWO_EYEDS ∨ card = "JJ") ∧
          m = (card, MoveType.PLACE_CHIP, pos)) := by
  unfold Board.iter_moves
  rw [List.mem_append]
  by_cases h1 : card ∈ ONE_EYEDS ∨ card = "JJ" <;>
    by_cases h2 : card ∈ ONE_EYEDS <;>
    simp [h1, h2, mem_removal_moves, mem_place_moves]

/-- C1: `iter_moves` yields exactly the REMOVE moves at positions holding
an unlocked chip of another team (when the card is a one-eyed Jack or the
Joker) and the PLACE moves at empty non-corner positions whose fixed card
matches the played card or where the card is a two-eyed Jack or the Joker
(when the card is not a one-eyed Jack); in particular a one-eyed Jack
never yields a PLACE move, and a two-eyed Jack or Joker's PLACE moves do
not depend on the cell's fixed card. -/
theorem c1_iter_moves_exact (b : Board) (card : String) (team : Team) :
    (∀ m : Move, m ∈ b.iter_moves card team ↔
      ((card ∈ ONE_EYEDS ∨ card = "JJ") ∧
        ∃ pos, pos.1 < 10 ∧ pos.2 < 10 ∧
          (∃ chip, b.chipAt pos = some chip ∧ chip.team ≠ team ∧ chip.flipped = false) ∧
          m = (card, MoveType.REMOVE_CHIP, pos)) ∨
      (card ∉ ONE_EYEDS ∧
        ∃ pos, pos.1 < 10 ∧ pos.2 < 10 ∧ b.chipAt pos = none ∧
          posCard pos ≠ BoardCell.corn ∧
          (posCard pos = BoardCell.card card ∨ card ∈ TWO_EYEDS ∨ card = "JJ") ∧
          m = (card, MoveType.PLACE_CHIP, pos))) ∧
    (∀ pos : Pos, card ∈ ONE_EYEDS →
      (card, MoveType.PLACE_CHIP, pos) ∉ b.iter_moves card team) ∧
    (∀ pos : Pos, card ∈ TWO_EYEDS ∨ card = "JJ" →
      ((card, MoveType.PLACE_CHIP, pos) ∈ b.iter_moves card team ↔
        pos.1 < 10 ∧ pos.2 < 10 ∧ b.chipAt pos = none ∧
        posCard pos ≠ BoardCell.corn)) := by
  have hmain : ∀ m : Move, m ∈ b.iter_moves card team ↔
      ((card ∈ ONE_EYEDS ∨ card = "JJ") ∧
        ∃ pos, pos.1 < 10 ∧ pos.2 < 10 ∧
          (∃ chip, b.chipAt pos = some chip ∧ chip.team ≠ team ∧ chip.flipped = false) ∧
          m = (card, MoveType.REMOVE_CHIP, pos)) ∨
      (card ∉ ONE_EYEDS ∧
        ∃ pos, pos.1 < 10 ∧ pos.2 < 10 ∧ b.chipAt pos = none ∧
          posCard pos ≠ BoardCell.corn ∧
          (posCard pos = BoardCell.card card ∨ card ∈ TWO_EYEDS ∨ card = "JJ") ∧
          m = (card, MoveType.PLACE_CHIP, pos)) :=
    fun m => mem_iter_moves_iff b card team m
  refine ⟨hmain, ?_, ?_⟩
  · intro pos hcard h
    rcases (hmain _).1 h with ⟨_, _, _, _, _, heq⟩ | ⟨hno, _⟩
    · simp at heq
    · exact hno hcard
  · intro pos hwild
    have hnotone : card ∉ ONE_EYEDS := by
      intro hone
      rcases hwild with h | rfl
      · simp only [TWO_EYEDS, List.mem_cons, List.not_mem_nil, or_false] at h
        rcases h with rfl | rfl <;> simp [ONE_EYEDS] at hone
      · simp [ONE_EYEDS] at hone
    rw [hmain]
    constructor
    · rintro (⟨_, pos', _, _, _, heq⟩ | ⟨_, pos', hp1, hp2, hchip, hcorn, _, heq⟩)
      · simp at heq
      · simp only [Prod.mk.injEq] at heq
        obtain ⟨-, -, rfl⟩ := heq
        exact ⟨hp1, hp2, hchip, hcorn⟩
    · rintro ⟨hp1, hp2, hchip, hcorn⟩
      exact Or.inr ⟨hnotone, pos, hp1, hp2, hchip, hcorn, Or.inr hwild, rfl⟩

/-- C2: `put_chip` fails exactly when the position is a corner, the card
is a one-eyed Jack, the position already holds a chip, or the card is
neither a two-eyed Jack nor the Joker and differs from the fixed card at
the position; on success the result is the board with a new unlocked chip
of the team at that position, re-evaluated for locks over the whole
catalog (failure returns no board, leaving the state unchanged). -/
theorem c2_put_chip_legality (b : Board) (card : String) (pos : Pos) (team : Team) :
    ((∃ msg, b.put_chip card pos team = .error msg) ↔
      (posCard pos = BoardCell.corn ∨ card ∈ ONE_EYEDS ∨ (b.chipAt pos).isSome = true ∨
        (¬(card ∈ TWO_EYEDS ∨ card = "JJ") ∧ BoardCell.card card ≠ posCard pos))) ∧
    (∀ b', b.put_chip card pos team = .ok b' →
      b' = (b.setChip pos (some ⟨team, false⟩)).update_sequences) := by
  unfold Board.put_chip
  by_cases h1 : posCard pos = BoardCell.corn
  · simp [h1]
  · rw [if_neg h1]
    by_cases h2 : card ∈ ONE_EYEDS
    · simp [h1, h2]
    · rw [if_neg h2]
      by_cases h3 : (b.chipAt pos).isSome = true
      · simp [h1, h2, h3]
      · rw [if_neg h3]
        by_cases h4 : ¬(card ∈ TWO_EYEDS ∨ card = "JJ") ∧ BoardCell.card card ≠ posCard pos
        · simp [h1, h2, h3, h4]
        · rw [if_neg h4]
          constructor
          · constructor
            · rintro ⟨msg, hmsg⟩; cases hmsg
            · rintro (hc | hc | hc | hc)
              · exact absurd hc h1
              · exact absurd hc h2
              · exact absurd hc h3
              · exact absurd hc h4
          · rintro b' hb'
            rw [Except.ok.injEq] at hb'
            exact hb'.symm

/-- C3: `remove_chip` fails exactly when the position holds no chip, the
chip there is locked, the chip belongs to the acting team, or the card is
neither the Joker nor a one-eyed Jack; on success the result is the board
with only that chip deleted — no lock re-evaluation runs, and every other
cell keeps its chip and lock state (failure returns no board, leaving the
state unchanged). -/
theorem c3_remove_chip_legality (b : Board) (card : String) (pos : Pos) (team : Team) :
    ((∃ msg, b.remove_chip card pos team = .error msg) ↔
      (b.chipAt pos = none ∨
        (∃ chip, b.chipAt pos = some chip ∧ (chip.flipped = true ∨ chip.team = team)) ∨
        (card ≠ "JJ" ∧ card ∉ ONE_EYEDS))) ∧
    (∀ b', b.remove_chip card pos team = .ok b' →
      b' = b.setChip pos none ∧ b'.chipAt pos = none ∧
        ∀ q, q ≠ pos → b'.chipAt q = b.chipAt q) := by
  unfold Board.remove_chip
  cases h : b.chipAt pos with
  | none => simp [h]
  | some chip =>
    simp only [h]
    by_cases h1 : chip.flipped = true
    · simp [h, h1]
    · rw [if_neg h1]
      by_cases h2 : chip.team = team
      · simp [h, h1, h2]
      · rw [if_neg h2]
        by_cases h3 : card ≠ "JJ" ∧ card ∉ ONE_EYEDS
        · simp [h, h1, h2, h3]
        · rw [if_neg h3]
          simp only [h, h1, h2, h3]
          constructor
          · constructor
            · rintro ⟨msg, hmsg⟩; cases hmsg
            · rintro (hc | ⟨chip', hc, hflip⟩ | hc)
              · cases hc
              · rw [Option.some.injEq] at hc
                subst hc
                rcases hflip with hf | hf
                · exact absurd hf h1
                · exact absurd hf h2
              · exact hc.elim
          · rintro b' hb'
            rw [Except.ok.injEq] at hb'
            subst hb'
            refine ⟨rfl, ?_, ?_⟩
            · rw [chipAt_setChip, if_pos rfl]
            · intro q hq
              rw [chipAt_setChip, if_neg hq]

/-! ### The flipping pass, pointwise -/

theorem chipAt_flipAt (b : Board) (p q : Pos) :
    (b.flipAt p).chipAt q =
      if q = p then (b.chipAt p).map (fun c => ⟨c.team, true⟩) else b.chipAt q := by
  unfold Board.flipAt
  cases h : b.chipAt p with
  | none => by_cases hq : q = p <;> simp [hq, h]
  | some chip =>
    obtain ⟨t, f⟩ := chip
    cases f
    · by_cases hq : q = p <;> simp [hq, h, chipAt_setChip]
    · by_cases hq : q = p <;> simp [hq, h]

theorem chipAt_flipSeq (b : Board) (seq : List Pos) (q : Pos) :
    (b.flipSeq seq).chipAt q =
      if q ∈ seq then (b.chipAt q).map (fun c => ⟨c.team, true⟩) else b.chipAt q := by
  induction seq generalizing b with
  | nil => simp [Board.flipSeq]
  | cons p rest ih =>
    have hstep : b.flipSeq (p :: rest) = (b.flipAt p).flipSeq rest := rfl
    rw [hstep, ih]
    by_cases hq : q ∈ rest
    · rw [if_pos hq, if_pos (List.mem_cons_of_mem _ hq), chipAt_flipAt]
      by_cases hqp : q = p
      · subst hqp
        cases b.chipAt q <;> simp
      · rw [if_neg hqp]
    · rw [if_neg hq, chipAt_flipAt]
      by_cases hqp : q = p
      · subst hqp
        simp [List.mem_cons]
      · rw [if_neg hqp, if_neg (by simp [List.mem_cons, hqp, hq])]

/-- The team of the chip at a position, if any: the part of the state the
completeness walk reads. -/
def Board.teamAt (b : Board) (q : Pos) : Option Team := (b.chipAt q).map Chip.team

theorem teamAt_flipSeq (b : Board) (seq : List Pos) (q : Pos) :
    (b.flipSeq seq).teamAt q = b.teamAt q := by
  unfold Board.teamAt
  rw [chipAt_flipSeq]
  by_cases hq : q ∈ seq
  · rw [if_pos hq]
    cases b.chipAt q <;> simp
  · rw [if_neg hq]

theorem seqWinnerGo_congr {b b' : Board} (hb : ∀ q, b.teamAt q = b'.teamAt q)
    (seq : List Pos) (w : Option Team) :
    b.seqWinnerGo seq w = b'.seqWinnerGo seq w := by
  induction seq generalizing w with
  | nil => rfl
  | cons p rest ih =>
    have hp := hb p
    unfold Board.teamAt at hp
    unfold Board.seqWinnerGo Board.getpos
    cases hc : posCard p with
    | corn => cases h1 : b.chipAt p <;> cases h2 : b'.chipAt p <;> exact ih w
    | card c =>
      cases h1 : b.chipAt p with
      | none =>
        cases h2 : b'.chipAt p with
        | none => rfl
        | some chip' => rw [h1, h2] at hp; simp at hp
      | some chip =>
        cases h2 : b'.chipAt p with
        | none => rw [h1, h2] at hp; simp at hp
        | some chip' =>
          rw [h1, h2] at hp
          simp only [Option.map_some'] at hp
          rw [Option.some.injEq] at hp
          cases w with
          | none => simp only [hp]; exact ih _
          | some t =>
            simp only [hp]
            by_cases ht : t ≠ chip'.team
            · simp only [if_pos ht]
            · simp only [if_neg ht]
              exact ih _

theorem seqWinner_foldStep_teamAt (l : List (List Pos)) (b : Board) (q : Pos) :
    ((l.foldl (fun bb seq =>
      if bb.seqWinnerGo seq none then bb.flipSeq seq else bb) b)).teamAt q =
      b.teamAt q := by
  induction l generalizing b with
  | nil => rfl
  | cons s rest ih =>
    rw [List.foldl_cons, ih]
    by_cases h : b.seqWinnerGo s none = true
    · rw [if_pos h, teamAt_flipSeq]
    · rw [if_neg h]

theorem teamAt_update_sequences (b : Board) (q : Pos) :
    b.update_sequences.teamAt q = b.teamAt q :=
  seqWinner_foldStep_teamAt iter_all_sequences b q

/-! ### The completeness walk of lock evaluation -/

theorem seqWinnerGo_some_iff (b : Board) (seq : List Pos) (t : Team) :
    b.seqWinnerGo seq (some t) = true ↔
      ∀ pos ∈ seq, posCard pos ≠ BoardCell.corn →
        ∃ c, b.chipAt pos = some c ∧ c.team = t := by
  induction seq generalizing t with
  | nil => simp [Board.seqWinnerGo]
  | cons p rest ih =>
    cases hc : posCard p with
    | corn =>
      have hred : b.seqWinnerGo (p :: rest) (some t) = b.seqWinnerGo rest (some t) := by
        cases h1 : b.chipAt p <;>
          simp only [Board.seqWinnerGo, Board.getpos, hc, h1]
      rw [hred, ih]
      simp [List.forall_mem_cons, hc]
    | card c =>
      cases h1 : b.chipAt p with
      | none =>
        have hred : b.seqWinnerGo (p :: rest) (some t) = false := by
          simp only [Board.seqWinnerGo, Board.getpos, hc, h1]
        rw [hred]
        constructor
        · intro h; exact absurd h (by simp)
        · intro h
          exfalso
          obtain ⟨c', hc', -⟩ :=
            h p (List.mem_cons_self p rest) (by rw [hc]; intro hh; cases hh)
          rw [h1] at hc'
          cases hc'
      | some chip =>
        have hred : b.seqWinnerGo (p :: rest) (some t) =
            if t ≠ chip.team then false else b.seqWinnerGo rest (some chip.team) := by
          simp only [Board.seqWinnerGo, Board.getpos, hc, h1]
        rw [hred]
        by_cases ht : t = chip.team
        · rw [if_neg (by simp [ht]), ← ht, ih]
          simp only [List.forall_mem_cons]
          constructor
          · intro h
            exact ⟨fun _ => ⟨chip, h1, ht.symm⟩, h⟩
          · exact fun h => h.2
        · rw [if_pos ht]
          constructor
          · intro h; exact absurd h (by simp)
          · intro h
            exfalso
            obtain ⟨c', hc', hteam⟩ :=
              h p (List.mem_cons_self p rest) (by rw [hc]; intro hh; cases hh)
            rw [h1, Option.some.injEq] at hc'
            subst hc'
            exact ht hteam.symm

/-- The spec-side completeness criterion of lock evaluation: every
non-corner member cell holds a chip, and the owners of the chips on
non-corner member cells all agree (corner cells count for any owner). -/
def seqCompleteSpec (b : Board) (seq : List Pos) : Prop :=
  (∀ pos ∈ seq, posCard pos ≠ BoardCell.corn → ∃ c, b.chipAt pos = some c) ∧
  ∀ p ∈ seq, ∀ q ∈ seq, posCard p ≠ BoardCell.corn → posCard q ≠ BoardCell.corn →
    ∀ cp cq, b.chipAt p = some cp → b.chipAt q = some cq → cp.team = cq.team

theorem seqWinnerGo_none_iff (b : Board) (seq : List Pos) :
    b.seqWinnerGo seq none = true ↔ seqCompleteSpec b seq := by
  induction seq with
  | nil =>
    simp only [Board.seqWinnerGo, seqCompleteSpec]
    simp
  | cons p rest ih =>
    cases hc : posCard p with
    | corn =>
      have hred : b.seqWinnerGo (p :: rest) none = b.seqWinnerGo rest none := by
        cases h1 : b.chipAt p <;>
          simp only [Board.seqWinnerGo, Board.getpos, hc, h1]
      rw [hred, ih]
      unfold seqCompleteSpec
      constructor
      · rintro ⟨hpres, hagree⟩
        constructor
        · intro pos hmem hpc
          rcases List.mem_cons.mp hmem with rfl | hmem'
          · exact absurd hc hpc
          · exact hpres pos hmem' hpc
        · intro x hx y hy hxc hyc cx cy hcx hcy
          rcases List.mem_cons.mp hx with rfl | hx'
          · exact absurd hc hxc
          rcases List.mem_cons.mp hy with rfl | hy'
          · exact absurd hc hyc
          exact hagree x hx' y hy' hxc hyc cx cy hcx hcy
      · rintro ⟨hpres, hagree⟩
        refine ⟨fun pos hmem hpc => hpres pos (List.mem_cons_of_mem _ hmem) hpc, ?_⟩
        intro x hx y hy hxc hyc cx cy hcx hcy
        exact hagree x (List.mem_cons_of_mem _ hx) y (List.mem_cons_of_mem _ hy)
          hxc hyc cx cy hcx hcy
    | card c =>
      have hpc : posCard p ≠ BoardCell.corn := by rw [hc]; intro hh; cases hh
      cases h1 : b.chipAt p with
      | none =>
        have hred : b.seqWinnerGo (p :: rest) none = false := by
          simp only [Board.seqWinnerGo, Board.getpos, hc, h1]
        rw [hred]
        constructor
        · intro h; exact absurd h (by simp)
        · rintro ⟨hpres, -⟩
          exfalso
          obtain ⟨c', hc'⟩ := hpres p (List.mem_cons_self p rest) hpc
          rw [h1] at hc'
          cases hc'
      | some chip =>
        have hred : b.seqWinnerGo (p :: rest) none = b.seqWinnerGo rest (some chip.team) := by
          simp only [Board.seqWinnerGo, Board.getpos, hc, h1]
        rw [hred, seqWinnerGo_some_iff]
        unfold seqCompleteSpec
        constructor
        · intro h
          have hteam : ∀ z ∈ p :: rest, posCard z ≠ BoardCell.corn →
              ∀ cz, b.chipAt z = some cz → cz.team = chip.team := by
            intro z hz hzc cz hcz
            rcases List.mem_cons.mp hz with rfl | hz'
            · rw [h1, Option.some.injEq] at hcz; rw [hcz]
            · obtain ⟨c', hc', ht⟩ := h z hz' hzc
              rw [hc', Option.some.injEq] at hcz
              exact hcz ▸ ht
          constructor
          · intro pos hmem hposc
            rcases List.mem_cons.mp hmem with rfl | hmem'
            · exact ⟨chip, h1⟩
            · obtain ⟨c', hc', -⟩ := h pos hmem' hposc
              exact ⟨c', hc'⟩
          · intro x hx y hy hxc hyc cx cy hcx hcy
            rw [hteam x hx hxc cx hcx, hteam y hy hyc cy hcy]
        · rintro ⟨hpres, hagree⟩ pos hmem hposc
          obtain ⟨c', hc'⟩ := hpres pos (List.mem_cons_of_mem _ hmem) hposc
          refine ⟨c', hc', ?_⟩
          exact hagree pos (List.mem_cons_of_mem _ hmem) p (List.mem_cons_self p rest)
            hposc hpc c' chip hc' h1

/-! ### Idempotence and monotonicity of lock evaluation -/

/-- Every chip among the members of `seq` is flipped. -/
def AllFlipped (b : Board) (seq : List Pos) : Prop :=
  ∀ pos ∈ seq, ∀ c, b.chipAt pos = some c → c.flipped = true

theorem allFlipped_flipSeq_self (b : Board) (seq : List Pos) :
    AllFlipped (b.flipSeq seq) seq := by
  intro pos hmem c hcz
  rw [chipAt_flipSeq, if_pos hmem] at hcz
  cases h : b.chipAt pos <;> rw [h] at hcz
  · cases hcz
  · rw [Option.map_some', Option.some.injEq] at hcz
    rw [← hcz]

theorem allFlipped_mono_flipSeq {b : Board} {seq : List Pos} (s' : List Pos)
    (h : AllFlipped b seq) : AllFlipped (b.flipSeq s') seq := by
  intro pos hmem c hcz
  rw [chipAt_flipSeq] at hcz
  by_cases hq : pos ∈ s'
  · rw [if_pos hq] at hcz
    cases hb : b.chipAt pos <;> rw [hb] at hcz
    · cases hcz
    · rw [Option.map_some', Option.some.injEq] at hcz
      rw [← hcz]
  · rw [if_neg hq] at hcz
    exact h pos hmem c hcz

theorem teamAt_updateStep (b : Board) (s : List Pos) (q : Pos) :
    ((if b.seqWinnerGo s none then b.flipSeq s else b) : Board).teamAt q = b.teamAt q := by
  by_cases hw : b.seqWinnerGo s none = true
  · rw [if_pos hw, teamAt_flipSeq]
  · rw [if_neg hw]

theorem allFlipped_mono_fold (l : List (List Pos)) {b : Board} {seq : List Pos}
    (h : AllFlipped b seq) :
    AllFlipped (l.foldl (fun bb s =>
      if bb.seqWinnerGo s none then bb.flipSeq s else bb) b) seq := by
  induction l generalizing b with
  | nil => exact h
  | cons s rest ih =>
    rw [List.foldl_cons]
    apply ih
    by_cases hw : b.seqWinnerGo s none = true
    · rw [if_pos hw]
      exact allFlipped_mono_flipSeq s h
    · rw [if_neg hw]
      exact h

theorem allFlipped_after_fold (l : List (List Pos)) (b : Board) :
    ∀ seq ∈ l, b.seqWinnerGo seq none = true →
      AllFlipped (l.foldl (fun bb s =>
        if bb.seqWinnerGo s none then bb.flipSeq s else bb) b) seq := by
  induction l generalizing b with
  | nil => intro seq h; cases h
  | cons s rest ih =>
    intro seq hmem hw
    rw [List.foldl_cons]
    rcases List.mem_cons.mp hmem with rfl | hmem'
    · apply allFlipped_mono_fold
      rw [if_pos hw]
      exact allFlipped_flipSeq_self b seq
    · apply ih _ seq hmem'
      rw [seqWinnerGo_congr (fun q => teamAt_updateStep b s q) seq none]
      exact hw

theorem flipSeq_id_of_allFlipped (b : Board) (seq : List Pos)
    (h : AllFlipped b seq) : b.flipSeq seq = b := by
  induction seq generalizing b with
  | nil => rfl
  | cons p rest ih =>
    have hstep : b.flipSeq (p :: rest) = (b.flipAt p).flipSeq rest := rfl
    have hp : b.flipAt p = b := by
      unfold Board.flipAt
      cases hb : b.chipAt p with
      | none => rfl
      | some c =>
        have hf := h p (List.mem_cons_self p rest) c hb
        simp [hf]
    rw [hstep, hp]
    exact ih b fun pos hm c hc => h pos (List.mem_cons_of_mem _ hm) c hc

theorem fold_id_of_inv (l : List (List Pos)) (b : Board)
    (h : ∀ seq ∈ l, b.seqWinnerGo seq none = true → AllFlipped b seq) :
    l.foldl (fun bb s => if bb.seqWinnerGo s none then bb.flipSeq s else bb) b = b := by
  induction l with
  | nil => rfl
  | cons s rest ih =>
    rw [List.foldl_cons]
    have hstep : (if b.seqWinnerGo s none then b.flipSeq s else b) = b := by
      by_cases hw : b.seqWinnerGo s none = true
      · rw [if_pos hw]
        exact flipSeq_id_of_allFlipped b s (h s (List.mem_cons_self s rest) hw)
      · rw [if_neg hw]
    rw [hstep]
    exact ih fun seq hm hw => h seq (List.mem_cons_of_mem _ hm) hw

theorem update_sequences_idem (b : Board) :
    b.update_sequences.update_sequences = b.update_sequences := by
  have hcongr : ∀ seq w, b.update_sequences.seqWinnerGo seq w = b.seqWinnerGo seq w :=
    fun seq w => seqWinnerGo_congr (fun q => teamAt_update_sequences b q) seq w
  have hinv : ∀ seq ∈ iter_all_sequences,
      b.update_sequences.seqWinnerGo seq none = true →
        AllFlipped b.update_sequences seq := by
    intro seq hmem hw
    rw [hcongr] at hw
    exact allFlipped_after_fold iter_all_sequences b seq hmem hw
  exact fold_id_of_inv iter_all_sequences b.update_sequences hinv

theorem chipAt_fold_locked (l : List (List Pos)) (b : Board) (q : Pos) (t : Team)
    (h : b.chipAt q = some ⟨t, true⟩) :
    (l.foldl (fun bb s =>
      if bb.seqWinnerGo s none then bb.flipSeq s else bb) b).chipAt q = some ⟨t, true⟩ := by
  induction l generalizing b with
  | nil => exact h
  | cons s rest ih =>
    rw [List.foldl_cons]
    apply ih
    by_cases hw : b.seqWinnerGo s none = true
    · rw [if_pos hw, chipAt_flipSeq]
      by_cases hq : q ∈ s
      · rw [if_pos hq, h, Option.map_some']
      · rw [if_neg hq, h]
    · rw [if_neg hw]
      exact h

theorem chipAt_update_sequences_locked (b : Board) (q : Pos) (t : Team)
    (h : b.chipAt q = some ⟨t, true⟩) :
    b.update_sequences.chipAt q = some ⟨t, true⟩ :=
  chipAt_fold_locked iter_all_sequences b q t h

/-- C4: lock evaluation deems a sequence complete exactly when every
non-corner member cell holds a chip and the owners of the chips on
non-corner member cells agree (corner cells count for any owner); the
flipping pass on completion locks every currently-unlocked chip among
the sequence's positions, keeping each chip's team and leaving
already-locked chips unchanged; and re-running lock evaluation with no
intervening placement changes nothing. -/
theorem c4_lock_evaluation (b : Board) :
    (∀ seq : List Pos, b.seqWinnerGo seq none = true ↔ seqCompleteSpec b seq) ∧
    (∀ seq : List Pos, ∀ q : Pos,
      (b.flipSeq seq).chipAt q =
        if q ∈ seq then (b.chipAt q).map (fun c => ⟨c.team, true⟩) else b.chipAt q) ∧
    b.update_sequences.update_sequences = b.update_sequences :=
  ⟨fun seq => seqWinnerGo_none_iff b seq,
   fun seq q => chipAt_flipSeq b seq q,
   update_sequences_idem b⟩

/-! ### Success inversion for put and remove -/

theorem put_chip_ok_elim {b b' : Board} {card : String} {p : Pos} {team : Team}
    (h : b.put_chip card p team = .ok b') :
    b.chipAt p = none ∧ b' = (b.setChip p (some ⟨team, false⟩)).update_sequences := by
  unfold Board.put_chip at h
  by_cases h1 : posCard p = BoardCell.corn
  · rw [if_pos h1] at h; cases h
  · rw [if_neg h1] at h
    by_cases h2 : card ∈ ONE_EYEDS
    · rw [if_pos h2] at h; cases h
    · rw [if_neg h2] at h
      by_cases h3 : (b.chipAt p).isSome = true
      · rw [if_pos h3] at h; cases h
      · rw [if_neg h3] at h
        by_cases h4 : ¬(card ∈ TWO_EYEDS ∨ card = "JJ") ∧ BoardCell.card card ≠ posCard p
        · rw [if_pos h4] at h; cases h
        · rw [if_neg h4, Except.ok.injEq] at h
          refine ⟨?_, h.symm⟩
          cases ho : b.chipAt p with
          | none => rfl
          | some c => rw [ho] at h3; simp at h3

theorem remove_chip_ok_elim {b b' : Board} {card : String} {p : Pos} {team : Team}
    (h : b.remove_chip card p team = .ok b') :
    ∃ chip, b.chipAt p = some chip ∧ chip.flipped = false ∧ chip.team ≠ team ∧
      b' = b.setChip p none := by
  unfold Board.remove_chip at h
  cases ho : b.chipAt p with
  | none => simp only [ho] at h; cases h
  | some chip =>
    simp only [ho] at h
    by_cases h1 : chip.flipped = true
    · rw [if_pos h1] at h; cases h
    · rw [if_neg h1] at h
      by_cases h2 : chip.team = team
      · rw [if_pos h2] at h; cases h
      · rw [if_neg h2] at h
        by_cases h3 : card ≠ "JJ" ∧ card ∉ ONE_EYEDS
        · rw [if_pos h3] at h; cases h
        · rw [if_neg h3, Except.ok.injEq] at h
          exact ⟨chip, rfl, Bool.not_eq_true _ ▸ h1, h2, h.symm⟩

/-! ### Sequences of operations -/

/-- One operation against the board: a placement attempt, a removal
attempt, or a lock re-evaluation.  A rejected attempt (an `IllegalMove`
in the source) leaves the board unchanged. -/
inductive GameOp where
  | put : String → Pos → Team → GameOp
  | remove : String → Pos → Team → GameOp
  | update : GameOp

/-- Apply one operation; a failing `put_chip` or `remove_chip` leaves
the state as it was, exactly as the raising Python methods do. -/
def applyOp (b : Board) (op : GameOp) : Board :=
  match op with
  | .put card pos team =>
    match b.put_chip card pos team with
    | .ok b' => b'
    | .error _ => b
  | .remove card pos team =>
    match b.remove_chip card pos team with
    | .ok b' => b'
    | .error _ => b
  | .update => b.update_sequences

/-- Apply a list of operations in order. -/
def applyOps (b : Board) (ops : List GameOp) : Board := ops.foldl applyOp b

/-- C5: locking is one-way — a locked chip survives, stays locked and
keeps its team under any sequence of placements, removals and lock
re-evaluations. -/
theorem c5_locked_chip_persists (b : Board) (ops : List GameOp) (pos : Pos) (t : Team)
    (h : b.chipAt pos = some ⟨t, true⟩) :
    (applyOps b ops).chipAt pos = some ⟨t, true⟩ := by
  induction ops generalizing b with
  | nil => exact h
  | cons op rest ih =>
    have hstep : applyOps b (op :: rest) = applyOps (applyOp b op) rest := rfl
    rw [hstep]
    apply ih
    cases op with
    | update => exact chipAt_update_sequences_locked b pos t h
    | put card p team =>
      simp only [applyOp]
      cases hput : b.put_chip card p team with
      | error msg => exact h
      | ok b' =>
        simp only [hput]
        obtain ⟨hnone, hb'⟩ := put_chip_ok_elim hput
        rw [hb']
        have hne : ¬ pos = p := by
          intro he
          rw [he, hnone] at h
          cases h
        apply chipAt_update_sequences_locked
        rw [chipAt_setChip, if_neg hne]
        exact h
    | remove card p team =>
      simp only [applyOp]
      cases hrem : b.remove_chip card p team with
      | error msg => exact h
      | ok b' =>
        simp only [hrem]
        obtain ⟨chip, hchip, hflip, -, hb'⟩ := remove_chip_ok_elim hrem
        rw [hb']
        have hne : ¬ pos = p := by
          intro he
          rw [← he, h, Option.some.injEq] at hchip
          rw [← hchip] at hflip
          simp at hflip
        rw [chipAt_setChip, if_neg hne]
        exact h

/-- Witness for C5 at a concrete board: a locked blue chip at `(1, 1)`
survives a removal attempt with a one-eyed Jack followed by a lock
re-evaluation. -/
theorem c5_locked_chip_persists_witness :
    (Board.mk fun q => if q = ((1, 1) : Pos) then some ⟨TeamColor.blue, true⟩ else none).chipAt
        (1, 1) = some ⟨TeamColor.blue, true⟩ ∧
    (applyOps
        (Board.mk fun q => if q = ((1, 1) : Pos) then some ⟨TeamColor.blue, true⟩ else none)
        [GameOp.remove "JS" (1, 1) TeamColor.green, GameOp.update]).chipAt (1, 1) =
      some ⟨TeamColor.blue, true⟩ :=
  ⟨rfl, c5_locked_chip_persists _ _ (1, 1) TeamColor.blue rfl⟩

/-! ### Win-set resolution -/

theorem iter_sequences_no_filters (b : Board) :
    b.iter_sequences false none 0 [] = iter_all_sequences := by
  unfold Board.iter_sequences
  simp

theorem seqLockedFor_iff (b : Board) (team : Team) (seq : List Pos) :
    b.seqLockedFor team seq = true ↔
      ∀ pos ∈ seq, posCard pos ≠ BoardCell.corn →
        ∃ c, b.chipAt pos = some c ∧ c.team = team ∧ c.flipped = true := by
  rw [Board.seqLockedFor, List.all_eq_true]
  apply forall_congr'
  intro pos
  apply imp_congr_right
  intro _
  unfold Board.getpos
  cases hc : posCard pos with
  | corn => simp [hc]
  | card c =>
    cases h1 : b.chipAt pos with
    | none => simp [hc, h1]
    | some chip => simp [hc, h1, Bool.and_eq_true, decide_eq_true_eq]

theorem winning_fold_acc_sub (b : Board) (team : Team) (l : List (List Pos))
    (acc : List (List Pos)) :
    ∀ x ∈ acc, x ∈ l.foldl (fun winning_sequences seq =>
      if winning_sequences.any fun w => (w.toFinset ∩ seq.toFinset).card > 1 then
        winning_sequences
      else if b.seqLockedFor team seq then winning_sequences ++ [seq]
      else winning_sequences) acc := by
  induction l generalizing acc with
  | nil => exact fun x hx => hx
  | cons s rest ih =>
    intro x hx
    rw [List.foldl_cons]
    apply ih
    by_cases h1 : (acc.any fun w => (w.toFinset ∩ s.toFinset).card > 1) = true
    · rw [if_pos h1]; exact hx
    · rw [if_neg h1]
      by_cases h2 : b.seqLockedFor team s = true
      · rw [if_pos h2]; exact List.mem_append_left _ hx
      · rw [if_neg h2]; exact hx

theorem winning_fold_invariant (b : Board) (team : Team) (l : List (List Pos))
    (acc : List (List Pos))
    (hlock : ∀ s ∈ acc, b.seqLockedFor team s = true)
    (hpair : ∀ s1 ∈ acc, ∀ s2 ∈ acc, s1 ≠ s2 → (s1.toFinset ∩ s2.toFinset).card ≤ 1) :
    (∀ s ∈ l.foldl (fun winning_sequences seq =>
        if winning_sequences.any fun w => (w.toFinset ∩ seq.toFinset).card > 1 then
          winning_sequences
        else if b.seqLockedFor team seq then winning_sequences ++ [seq]
        else winning_sequences) acc, b.seqLockedFor team s = true) ∧
    (∀ s1 ∈ l.foldl (fun winning_sequences seq =>
        if winning_sequences.any fun w => (w.toFinset ∩ seq.toFinset).card > 1 then
          winning_sequences
        else if b.seqLockedFor team seq then winning_sequences ++ [seq]
        else winning_sequences) acc,
      ∀ s2 ∈ l.foldl (fun winning_sequences seq =>
        if winning_sequences.any fun w => (w.toFinset ∩ seq.toFinset).card > 1 then
          winning_sequences
        else if b.seqLockedFor team seq then winning_sequences ++ [seq]
        else winning_sequences) acc,
      s1 ≠ s2 → (s1.toFinset ∩ s2.toFinset).card ≤ 1) := by
  induction l generalizing acc with
  | nil => exact ⟨hlock, hpair⟩
  | cons s rest ih =>
    simp only [List.foldl_cons]
    by_cases h1 : (acc.any fun w => (w.toFinset ∩ s.toFinset).card > 1) = true
    · rw [if_pos h1]
      exact ih acc hlock hpair
    · rw [if_neg h1]
      by_cases h2 : b.seqLockedFor team s = true
      · rw [if_pos h2]
        have hno : ∀ w ∈ acc, (w.toFinset ∩ s.toFinset).card ≤ 1 := by
          intro w hw
          by_contra hgt
          exact h1 (List.any_eq_true.mpr ⟨w, hw, decide_eq_true (by omega)⟩)
        apply ih
        · intro x hx
          rcases List.mem_append.mp hx with hx' | hx'
          · exact hlock x hx'
          · rw [List.mem_singleton.mp hx']
            exact h2
        · intro x hx y hy hxy
          rcases List.mem_append.mp hx with hx' | hx' <;>
            rcases List.mem_append.mp hy with hy' | hy'
          · exact hpair x hx' y hy' hxy
          · rw [List.mem_singleton.mp hy']
            exact hno x hx'
          · rw [List.mem_singleton.mp hx']
            rw [Finset.inter_comm]
            exact hno y hy'
          · exact absurd (List.mem_singleton.mp hx' ▸ List.mem_singleton.mp hy' ▸ rfl) hxy
      · rw [if_neg h2]
        exact ih acc hlock hpair

theorem winning_fold_complete (b : Board) (team : Team) (l : List (List Pos))
    (acc : List (List Pos)) :
    ∀ s ∈ l, b.seqLockedFor team s = true →
      s ∈ l.foldl (fun winning_sequences seq =>
        if winning_sequences.any fun w => (w.toFinset ∩ seq.toFinset).card > 1 then
          winning_sequences
        else if b.seqLockedFor team seq then winning_sequences ++ [seq]
        else winning_sequences) acc ∨
      ∃ w ∈ l.foldl (fun winning_sequences seq =>
        if winning_sequences.any fun w => (w.toFinset ∩ seq.toFinset).card > 1 then
          winning_sequences
        else if b.seqLockedFor team seq then winning_sequences ++ [seq]
        else winning_sequences) acc, (w.toFinset ∩ s.toFinset).card > 1 := by
  induction l generalizing acc with
  | nil => intro s hs; cases hs
  | cons s' rest ih =>
    intro s hs hlock
    rcases List.mem_cons.mp hs with rfl | hs'
    · simp only [List.foldl_cons]
      by_cases h1 : (acc.any fun w => (w.toFinset ∩ s.toFinset).card > 1) = true
      · rw [if_pos h1]
        obtain ⟨w, hw, hgt⟩ := List.any_eq_true.mp h1
        right
        exact ⟨w, winning_fold_acc_sub b team rest acc w hw, of_decide_eq_true hgt⟩
      · rw [if_neg h1, if_pos hlock]
        left
        exact winning_fold_acc_sub b team rest _ s (List.mem_append_right _ (List.mem_singleton.mpr rfl))
    · simp only [List.foldl_cons]
      exact ih _ s hs' hlock

/-- C6: the win-set of a team consists of catalog sequences whose
non-corner members all hold locked chips of that team; a fully locked
catalog sequence is either selected or overlaps a selected one in more
than one cell; and the selected sequences pairwise share at most one
cell. -/
theorem c6_winning_sequences (b : Board) (team : Team) :
    (∀ s ∈ b.get_winning_sequences_for_team team,
      s ∈ iter_all_sequences ∧ b.seqLockedFor team s = true) ∧
    (∀ s : List Pos, b.seqLockedFor team s = true ↔
      ∀ pos ∈ s, posCard pos ≠ BoardCell.corn →
        ∃ c, b.chipAt pos = some c ∧ c.team = team ∧ c.flipped = true) ∧
    (∀ s ∈ iter_all_sequences, b.seqLockedFor team s = true →
      s ∈ b.get_winning_sequences_for_team team ∨
        ∃ w ∈ b.get_winning_sequences_for_team team,
          (w.toFinset ∩ s.toFinset).card > 1) ∧
    (∀ s1 ∈ b.get_winning_sequences_for_team team,
      ∀ s2 ∈ b.get_winning_sequences_for_team team,
        s1 ≠ s2 → (s1.toFinset ∩ s2.toFinset).card ≤ 1) := by
  have hdef : b.get_winning_sequences_for_team team =
      iter_all_sequences.foldl (fun winning_sequences seq =>
        if winning_sequences.any fun w => (w.toFinset ∩ seq.toFinset).card > 1 then
          winning_sequences
        else if b.seqLockedFor team seq then winning_sequences ++ [seq]
        else winning_sequences) [] := by
    rw [Board.get_winning_sequences_for_team, iter_sequences_no_filters]
  have hinv := winning_fold_invariant b team iter_all_sequences []
    (fun s hs => absurd hs (List.not_mem_nil s))
    (fun s1 hs1 => absurd hs1 (List.not_mem_nil s1))
  have hsrc : ∀ s ∈ b.get_winning_sequences_for_team team, s ∈ iter_all_sequences := by
    rw [hdef]
    generalize hgen : iter_all_sequences = l
    have main : ∀ (l' : List (List Pos)) (acc : List (List Pos)),
        (∀ x ∈ acc, x ∈ l) →
        ∀ s ∈ l'.foldl (fun winning_sequences seq =>
          if winning_sequences.any fun w => (w.toFinset ∩ seq.toFinset).card > 1 then
            winning_sequences
          else if b.seqLockedFor team seq then winning_sequences ++ [seq]
          else winning_sequences) acc, (∀ x ∈ l', x ∈ l) → s ∈ l := by
      intro l'
      induction l' with
      | nil => intro acc hacc s hs _; exact hacc s hs
      | cons a rest ih =>
        intro acc hacc s hs hsub
        simp only [List.foldl_cons] at hs
        by_cases h1 : (acc.any fun w => (w.toFinset ∩ a.toFinset).card > 1) = true
        · rw [if_pos h1] at hs
          exact ih acc hacc s hs (fun x hx => hsub x (List.mem_cons_of_mem _ hx))
        · rw [if_neg h1] at hs
          by_cases h2 : b.seqLockedFor team a = true
          · rw [if_pos h2] at hs
            refine ih _ ?_ s hs (fun x hx => hsub x (List.mem_cons_of_mem _ hx))
            intro x hx
            rcases List.mem_append.mp hx with hx' | hx'
            · exact hacc x hx'
            · rw [List.mem_singleton.mp hx']
              exact hsub a (List.mem_cons_self a rest)
          · rw [if_neg h2] at hs
            exact ih acc hacc s hs (fun x hx => hsub x (List.mem_cons_of_mem _ hx))
    intro s hs
    exact main l [] (fun x hx => absurd hx (List.not_mem_nil x)) s hs (fun x hx => hx)
  refine ⟨fun s hs => ⟨hsrc s hs, ?_⟩, fun s => seqLockedFor_iff b team s, ?_, ?_⟩
  · rw [hdef] at hs
    exact hinv.1 s hs
  · intro s hs hlock
    rw [hdef]
    exact winning_fold_complete b team iter_all_sequences [] s hs hlock
  · intro s1 hs1 s2 hs2 hne
    rw [hdef] at hs1 hs2
    exact hinv.2 s1 hs1 s2 hs2 hne

/-! ### The catalog as a set of runs -/

theorem mem_iter_all_sequences (s : List Pos) :
    s ∈ iter_all_sequences ↔
      (∃ r c, r < 10 ∧ c < 6 ∧ s = hrsequence r c) ∨
      (∃ r c, r < 6 ∧ c < 10 ∧ s = vdsequence r c) ∨
      (∃ r c, r < 6 ∧ c < 6 ∧ s = ddsequence r c) ∨
      (∃ r c, 4 ≤ r ∧ r < 10 ∧ c < 6 ∧ s = dusequence r c) := by
  unfold iter_all_sequences
  simp only [List.mem_append, List.mem_flatMap, List.mem_map, List.mem_range,
    List.mem_range']
  constructor
  · rintro (((⟨r, hr, c, hc, rfl⟩ | ⟨r, hr, c, hc, rfl⟩) | ⟨r, hr, c, hc, rfl⟩) |
      ⟨r, ⟨i, hi, rfl⟩, c, hc, rfl⟩)
    · exact Or.inl ⟨r, c, hr, hc, rfl⟩
    · exact Or.inr (Or.inl ⟨r, c, hr, hc, rfl⟩)
    · exact Or.inr (Or.inr (Or.inl ⟨r, c, hr, hc, rfl⟩))
    · exact Or.inr (Or.inr (Or.inr ⟨4 + 1 * i, c, by omega, by omega, hc, rfl⟩))
  · rintro (⟨r, c, hr, hc, rfl⟩ | ⟨r, c, hr, hc, rfl⟩ | ⟨r, c, hr, hc, rfl⟩ |
      ⟨r, c, hr4, hr, hc, rfl⟩)
    · exact Or.inl (Or.inl (Or.inl ⟨r, hr, c, hc, rfl⟩))
    · exact Or.inl (Or.inl (Or.inr ⟨r, hr, c, hc, rfl⟩))
    · exact Or.inl (Or.inr ⟨r, hr, c, hc, rfl⟩)
    · exact Or.inr ⟨r, ⟨r - 4, by omega, by omega⟩, c, hc, rfl⟩

/-- A position inside the 10x10 grid. -/
def inGrid (p : Pos) : Prop := p.1 ≤ 9 ∧ p.2 ≤ 9

instance (p : Pos) : Decidable (inGrid p) := by unfold inGrid; infer_instance

/-- Spec-side description of the catalog: `s` is the cell set of a
5-cell straight run of one of the four orientations whose cells all stay
in bounds.  For the up-right diagonal, `i ≤ r` states that the `i`-th
cell's row `r - i` is a true (nonnegative) row, as over the integers. -/
def IsStraightRun (s : Finset Pos) : Prop :=
  (∃ r c, (∀ p ∈ hrsequence r c, inGrid p) ∧ s = (hrsequence r c).toFinset) ∨
  (∃ r c, (∀ p ∈ vdsequence r c, inGrid p) ∧ s = (vdsequence r c).toFinset) ∨
  (∃ r c, (∀ p ∈ ddsequence r c, inGrid p) ∧ s = (ddsequence r c).toFinset) ∨
  (∃ r c, (∀ i, i < 5 → i ≤ r) ∧ (∀ p ∈ dusequence r c, inGrid p) ∧
    s = (dusequence r c).toFinset)

theorem hr_inGrid_iff (r c : Nat) :
    (∀ p ∈ hrsequence r c, inGrid p) ↔ r ≤ 9 ∧ c + 4 ≤ 9 := by
  constructor
  · intro h
    have h4 := h (r, c + 4) (List.mem_map.mpr ⟨4, by simp, rfl⟩)
    exact ⟨h4.1, h4.2⟩
  · intro hb p hp
    obtain ⟨n, hn, rfl⟩ := List.mem_map.mp hp
    rw [List.mem_range] at hn
    exact ⟨hb.1, by simp only; omega⟩

theorem vd_inGrid_iff (r c : Nat) :
    (∀ p ∈ vdsequence r c, inGrid p) ↔ r + 4 ≤ 9 ∧ c ≤ 9 := by
  constructor
  · intro h
    have h4 := h (r + 4, c) (List.mem_map.mpr ⟨4, by simp, rfl⟩)
    exact ⟨h4.1, h4.2⟩
  · intro hb p hp
    obtain ⟨n, hn, rfl⟩ := List.mem_map.mp hp
    rw [List.mem_range] at hn
    exact ⟨by simp only; omega, hb.2⟩

theorem dd_inGrid_iff (r c : Nat) :
    (∀ p ∈ ddsequence r c, inGrid p) ↔ r + 4 ≤ 9 ∧ c + 4 ≤ 9 := by
  constructor
  · intro h
    have h4 := h (r + 4, c + 4) (List.mem_map.mpr ⟨4, by simp, rfl⟩)
    exact ⟨h4.1, h4.2⟩
  · intro hb p hp
    obtain ⟨n, hn, rfl⟩ := List.mem_map.mp hp
    rw [List.mem_range] at hn
    exact ⟨by simp only; omega, by simp only; omega⟩

theorem du_inGrid_iff (r c : Nat) :
    ((∀ i, i < 5 → i ≤ r) ∧ ∀ p ∈ dusequence r c, inGrid p) ↔
      4 ≤ r ∧ r ≤ 9 ∧ c + 4 ≤ 9 := by
  constructor
  · rintro ⟨hi, h⟩
    have h0 := h (r - 0, c + 0) (List.mem_map.mpr ⟨0, by simp, rfl⟩)
    have h4 := h (r - 4, c + 4) (List.mem_map.mpr ⟨4, by simp, rfl⟩)
    have := hi 4 (by omega)
    refine ⟨this, ?_, h4.2⟩
    have := h0.1
    simp only at this
    omega
  · rintro ⟨h4, hr, hc⟩
    refine ⟨fun i hi => by omega, ?_⟩
    intro p hp
    obtain ⟨n, hn, rfl⟩ := List.mem_map.mp hp
    rw [List.mem_range] at hn
    exact ⟨by simp only; omega, by simp only; omega⟩

theorem catalog_sets_iff (s : Finset Pos) :
    (∃ l ∈ iter_all_sequences, l.toFinset = s) ↔ IsStraightRun s := by
  constructor
  · rintro ⟨l, hl, rfl⟩
    rcases (mem_iter_all_sequences l).mp hl with
      ⟨r, c, hr, hc, rfl⟩ | ⟨r, c, hr, hc, rfl⟩ | ⟨r, c, hr, hc, rfl⟩ |
      ⟨r, c, hr4, hr, hc, rfl⟩
    · exact Or.inl ⟨r, c, (hr_inGrid_iff r c).mpr ⟨by omega, by omega⟩, rfl⟩
    · exact Or.inr (Or.inl ⟨r, c, (vd_inGrid_iff r c).mpr ⟨by omega, by omega⟩, rfl⟩)
    · exact Or.inr (Or.inr (Or.inl ⟨r, c, (dd_inGrid_iff r c).mpr ⟨by omega, by omega⟩, rfl⟩))
    · refine Or.inr (Or.inr (Or.inr ⟨r, c, ?_, ?_, rfl⟩))
      · intro i hi; omega
      · exact ((du_inGrid_iff r c).mpr ⟨by omega, by omega, by omega⟩).2
  · rintro (⟨r, c, hb, rfl⟩ | ⟨r, c, hb, rfl⟩ | ⟨r, c, hb, rfl⟩ | ⟨r, c, hi, hb, rfl⟩)
    · obtain ⟨h1, h2⟩ := (hr_inGrid_iff r c).mp hb
      exact ⟨hrsequence r c,
        (mem_iter_all_sequences _).mpr (Or.inl ⟨r, c, by omega, by omega, rfl⟩), rfl⟩
    · obtain ⟨h1, h2⟩ := (vd_inGrid_iff r c).mp hb
      exact ⟨vdsequence r c,
        (mem_iter_all_sequences _).mpr (Or.inr (Or.inl ⟨r, c, by omega, by omega, rfl⟩)), rfl⟩
    · obtain ⟨h1, h2⟩ := (dd_inGrid_iff r c).mp hb
      exact ⟨ddsequence r c,
        (mem_iter_all_sequences _).mpr (Or.inr (Or.inr (Or.inl ⟨r, c, by omega, by omega, rfl⟩))), rfl⟩
    · obtain ⟨h1, h2, h3⟩ := (du_inGrid_iff r c).mp ⟨hi, hb⟩
      exact ⟨dusequence r c,
        (mem_iter_all_sequences _).mpr (Or.inr (Or.inr (Or.inr
          ⟨r, c, by omega, by omega, by omega, rfl⟩))), rfl⟩

/-- The corner positions of the board: the in-range positions whose
fixed cell of the layout is the corner marker. -/
def cornerPositions : List Pos :=
  iter_pos.filter fun p => decide (posCard p = BoardCell.corn)

set_option maxRecDepth 40000 in
theorem cornerPositions_eq :
    cornerPositions = [(0, 0), (0, 9), (9, 0), (9, 9)] := by decide

set_option maxRecDepth 100000 in
theorem corner_seqs_in_catalog :
    ∀ l ∈ iter_corner_sequences,
      l ∈ iter_all_sequences ∧ ∃ p ∈ cornerPositions, p ∈ l := by decide

set_option maxRecDepth 200000 in
theorem catalog_corner_seqs :
    ∀ l ∈ iter_all_sequences,
      (∃ p ∈ cornerPositions, p ∈ l) → l ∈ iter_corner_sequences := by decide

/-- C7: the catalog's members are exactly the cell sets of in-bounds
5-cell straight runs of the four orientations, and the corner
enumeration yields exactly the 12 runs of the catalog passing through a
corner position. -/
theorem c7_sequence_catalog (s : Finset Pos) :
    ((∃ l ∈ iter_all_sequences, l.toFinset = s) ↔ IsStraightRun s) ∧
    iter_corner_sequences.length = 12 ∧
    ((∃ l ∈ iter_corner_sequences, l.toFinset = s) ↔
      (IsStraightRun s ∧ ∃ p ∈ cornerPositions, p ∈ s)) := by
  refine ⟨catalog_sets_iff s, rfl, ?_, ?_⟩
  · rintro ⟨l, hl, rfl⟩
    obtain ⟨hcat, p, hp, hpl⟩ := corner_seqs_in_catalog l hl
    exact ⟨(catalog_sets_iff _).mp ⟨l, hcat, rfl⟩, p, hp, List.mem_toFinset.mpr hpl⟩
  · rintro ⟨hrun, p, hp, hps⟩
    obtain ⟨l, hl, rfl⟩ := (catalog_sets_iff _).mpr hrun
    exact ⟨l, catalog_corner_seqs l hl ⟨p, hp, List.mem_toFinset.mp hps⟩, rfl⟩

/-! ### The impossible-for-team filter -/

/-- No member cell of `seq` holds a locked chip of another team. -/
def noLockedOpposing (b : Board) (team : Team) (seq : List Pos) : Prop :=
  ∀ pos ∈ seq, ∀ c, b.chipAt pos = some c → c.team ≠ team → c.flipped = false

instance (b : Board) (team : Team) (seq : List Pos) :
    Decidable (noLockedOpposing b team seq) := by
  unfold noLockedOpposing; infer_instance

/-- The number of member cells of `seq` holding an unlocked chip of
another team. -/
def countUnlockedOpposing (b : Board) (team : Team) (seq : List Pos) : Nat :=
  seq.countP fun pos =>
    match b.chipAt pos with
    | some c => decide (c.team ≠ team) && !c.flipped
    | none => false

theorem possibleGo_iff (b : Board) (team : Team) (seq : List Pos) :
    ∀ budget : Nat, (b.possibleGo team seq budget = true ↔
      noLockedOpposing b team seq ∧ countUnlockedOpposing b team seq ≤ budget) := by
  induction seq with
  | nil =>
    intro budget
    simp [Board.possibleGo, noLockedOpposing, countUnlockedOpposing]
  | cons p rest ih =>
    intro budget
    have hnl : noLockedOpposing b team (p :: rest) ↔
        ((∀ c, b.chipAt p = some c → c.team ≠ team → c.flipped = false) ∧
          noLockedOpposing b team rest) := by
      unfold noLockedOpposing
      rw [List.forall_mem_cons]
    have hcnt : countUnlockedOpposing b team (p :: rest) =
        countUnlockedOpposing b team rest +
          (if (match b.chipAt p with
               | some c => decide (c.team ≠ team) && !c.flipped
               | none => false) = true then 1 else 0) := by
      unfold countUnlockedOpposing
      rw [List.countP_cons]
    cases h1 : b.chipAt p with
    | none =>
      have hred : b.possibleGo team (p :: rest) budget = b.possibleGo team rest budget := by
        simp only [Board.possibleGo, h1]
      rw [hred, ih, hnl, hcnt]
      simp [h1]
    | some chip =>
      by_cases hop : chip.team = team
      · have hred : b.possibleGo team (p :: rest) budget = b.possibleGo team rest budget := by
          simp only [Board.possibleGo, h1]
          rw [if_neg (fun h => h hop)]
        rw [hred, ih, hnl, hcnt]
        simp [h1, hop]
      · cases hfl : chip.flipped with
        | true =>
          have hred : b.possibleGo team (p :: rest) budget = false := by
            simp only [Board.possibleGo, h1]
            rw [if_pos hop, if_neg (by simp [hfl])]
          rw [hred]
          simp only [Bool.false_eq_true, false_iff]
          rintro ⟨hn, -⟩
          have hflat := (hnl.mp hn).1 chip h1 hop
          rw [hfl] at hflat
          cases hflat
        | false =>
          cases budget with
          | zero =>
            have hred : b.possibleGo team (p :: rest) 0 = false := by
              simp only [Board.possibleGo, h1]
              rw [if_pos hop, if_neg (by simp)]
            rw [hred, hcnt]
            simp [h1, hop, hfl]
          | succ k =>
            have hred : b.possibleGo team (p :: rest) (k + 1) = b.possibleGo team rest k := by
              simp only [Board.possibleGo, h1]
              rw [if_pos hop, if_pos ⟨by omega, hfl⟩, Nat.add_sub_cancel]
            have hone : (if (match b.chipAt p with
                | some c => decide (c.team ≠ team) && !c.flipped
                | none => false) = true then 1 else 0) = 1 := by
              simp [h1, hop, hfl]
            rw [hred, ih, hnl, hcnt, hone]
            constructor
            · rintro ⟨hn, hc⟩
              exact ⟨⟨fun c hcc _ => by
                rw [h1, Option.some.injEq] at hcc; rw [← hcc]; exact hfl, hn⟩, by omega⟩
            · rintro ⟨⟨-, hn⟩, hc⟩
              exact ⟨hn, by omega⟩

/-- C8: with the exclude-impossible filter, `iter_sequences` keeps
exactly the catalog sequences having no locked opposing chip and at most
`budget` unlocked opposing chips; the walk consumes one budget unit per
unlocked opposing chip in the sequence's fixed position order, and a
locked opposing chip is never tolerated. -/
theorem c8_iter_sequences_budget (b : Board) (team : Team) (budget : Nat) (seq : List Pos) :
    seq ∈ b.iter_sequences false (some team) budget [] ↔
      seq ∈ iter_all_sequences ∧ noLockedOpposing b team seq ∧
        countUnlockedOpposing b team seq ≤ budget := by
  unfold Board.iter_sequences
  rw [List.mem_filter]
  constructor
  · rintro ⟨hmem, hf⟩
    simp only [List.all_nil, Bool.and_true, if_neg, Bool.false_eq_true,
      not_false_eq_true, ite_false, Bool.true_and] at hf
    exact ⟨hmem, (possibleGo_iff b team seq budget).mp hf⟩
  · rintro ⟨hmem, hn, hc⟩
    refine ⟨hmem, ?_⟩
    simp only [List.all_nil, Bool.and_true, Bool.false_eq_true, not_false_eq_true,
      ite_false, Bool.true_and]
    exact (possibleGo_iff b team seq budget).mpr ⟨hn, hc⟩

/-! ### The evaluator's completion walk -/

/-- Number of corner member cells of `seq`. -/
def cornerCount (seq : List Pos) : Nat :=
  seq.countP fun pos => decide (posCard pos = BoardCell.corn)

/-- Number of non-corner member cells of `seq` holding a locked chip of
`team`. -/
def lockedOwnCount (b : Board) (team : Team) (seq : List Pos) : Nat :=
  seq.countP fun pos =>
    !decide (posCard pos = BoardCell.corn) &&
      (match b.chipAt pos with
       | some c => decide (c.team = team) && c.flipped
       | none => false)

/-- Number of non-corner member cells of `seq` holding an unlocked chip
of `team`. -/
def unlockedOwnCount (b : Board) (team : Team) (seq : List Pos) : Nat :=
  seq.countP fun pos =>
    !decide (posCard pos = BoardCell.corn) &&
      (match b.chipAt pos with
       | some c => decide (c.team = team) && !c.flipped
       | none => false)

/-- Number of non-corner member cells of `seq` holding an unlocked chip
of another team. -/
def unlockedOppCount (b : Board) (team : Team) (seq : List Pos) : Nat :=
  seq.countP fun pos =>
    !decide (posCard pos = BoardCell.corn) &&
      (match b.chipAt pos with
       | some c => decide (c.team ≠ team) && !c.flipped
       | none => false)

/-- Some non-corner member cell of `seq` holds a locked chip of another
team. -/
def HasLockedOpp (b : Board) (team : Team) (seq : List Pos) : Prop :=
  ∃ pos ∈ seq, posCard pos ≠ BoardCell.corn ∧
    ∃ c, b.chipAt pos = some c ∧ c.flipped = true ∧ c.team ≠ team

instance (b : Board) (team : Team) (seq : List Pos) :
    Decidable (HasLockedOpp b team seq) := by
  unfold HasLockedOpp; infer_instance

theorem hasLockedOpp_cons (b : Board) (team : Team) (p : Pos) (rest : List Pos) :
    HasLockedOpp b team (p :: rest) ↔
      (posCard p ≠ BoardCell.corn ∧
        ∃ c, b.chipAt p = some c ∧ c.flipped = true ∧ c.team ≠ team) ∨
      HasLockedOpp b team rest := by
  unfold HasLockedOpp
  constructor
  · rintro ⟨pos, hm, h⟩
    rcases List.mem_cons.mp hm with rfl | hm'
    · exact Or.inl h
    · exact Or.inr ⟨pos, hm', h⟩
  · rintro (h | ⟨pos, hm, h⟩)
    · exact ⟨p, List.mem_cons_self p rest, h⟩
    · exact ⟨pos, List.mem_cons_of_mem _ hm, h⟩

theorem sequence_completion_go_spec (b : Board) (team : Team) (seq : List Pos) :
    ∀ (comp oer : Nat) (shared : Bool),
      sequence_completion_go b team seq comp oer shared =
        if HasLockedOpp b team seq ∨
            (if shared then 1 else 2) ≤ lockedOwnCount b team seq then none
        else some (comp + cornerCount seq + unlockedOwnCount b team seq +
            (if shared then 0 else lockedOwnCount b team seq),
          oer + unlockedOppCount b team seq) := by
  induction seq with
  | nil =>
    intro comp oer shared
    cases shared <;>
      simp [sequence_completion_go, HasLockedOpp, cornerCount, lockedOwnCount,
        unlockedOwnCount, unlockedOppCount]
  | cons p rest ih =>
    intro comp oer shared
    have hex := hasLockedOpp_cons b team p rest
    cases hc : posCard p with
    | corn =>
      have hred : sequence_completion_go b team (p :: rest) comp oer shared =
          sequence_completion_go b team rest (comp + 1) oer shared := by
        cases h1 : b.chipAt p <;>
          simp only [sequence_completion_go, Board.getpos, hc, h1]
      have hcc : cornerCount (p :: rest) = cornerCount rest + 1 := by
        unfold cornerCount; rw [List.countP_cons]; simp [hc]
      have hlo : lockedOwnCount b team (p :: rest) = lockedOwnCount b team rest := by
        unfold lockedOwnCount; rw [List.countP_cons]; simp [hc]
      have huo : unlockedOwnCount b team (p :: rest) = unlockedOwnCount b team rest := by
        unfold unlockedOwnCount; rw [List.countP_cons]; simp [hc]
      have hup : unlockedOppCount b team (p :: rest) = unlockedOppCount b team rest := by
        unfold unlockedOppCount; rw [List.countP_cons]; simp [hc]
      have hexe : HasLockedOpp b team (p :: rest) ↔ HasLockedOpp b team rest := by
        rw [hex]; simp [hc]
      rw [hred, ih]
      simp only [hexe, hcc, hlo, huo, hup]
      by_cases hcond : HasLockedOpp b team rest ∨
          (if shared then 1 else 2) ≤ lockedOwnCount b team rest
      · rw [if_pos hcond, if_pos hcond]
      · rw [if_neg hcond, if_neg hcond]
        have hval : comp + 1 + cornerCount rest = comp + (cornerCount rest + 1) := by omega
        rw [hval]
    | card cn =>
      have hpc : posCard p ≠ BoardCell.corn := by rw [hc]; intro h; cases h
      cases h1 : b.chipAt p with
      | none =>
        have hred : sequence_completion_go b team (p :: rest) comp oer shared =
            sequence_completion_go b team rest comp oer shared := by
          simp only [sequence_completion_go, Board.getpos, hc, h1]
        have hcc : cornerCount (p :: rest) = cornerCount rest := by
          unfold cornerCount; rw [List.countP_cons]; simp [hc]
        have hlo : lockedOwnCount b team (p :: rest) = lockedOwnCount b team rest := by
          unfold lockedOwnCount; rw [List.countP_cons]; simp [h1]
        have huo : unlockedOwnCount b team (p :: rest) = unlockedOwnCount b team rest := by
          unfold unlockedOwnCount; rw [List.countP_cons]; simp [h1]
        have hup : unlockedOppCount b team (p :: rest) = unlockedOppCount b team rest := by
          unfold unlockedOppCount; rw [List.countP_cons]; simp [h1]
        have hexe : HasLockedOpp b team (p :: rest) ↔ HasLockedOpp b team rest := by
          rw [hex]; simp [h1]
        rw [hred, ih]
        simp only [hexe, hcc, hlo, huo, hup]
      | some chip =>
        cases hf : chip.flipped with
        | true =>
          by_cases hteam : chip.team = team
          · cases shared with
            | false =>
              have hred : sequence_completion_go b team (p :: rest) comp oer false =
                  sequence_completion_go b team rest (comp + 1) oer true := by
                simp only [sequence_completion_go, Board.getpos, hc, h1, hf]
                simp [hteam]
              have hcc : cornerCount (p :: rest) = cornerCount rest := by
                unfold cornerCount; rw [List.countP_cons]; simp [hc]
              have hlo : lockedOwnCount b team (p :: rest) = lockedOwnCount b team rest + 1 := by
                unfold lockedOwnCount; rw [List.countP_cons]; simp [hc, h1, hteam, hf]
              have huo : unlockedOwnCount b team (p :: rest) = unlockedOwnCount b team rest := by
                unfold unlockedOwnCount; rw [List.countP_cons]; simp [h1, hf]
              have hup : unlockedOppCount b team (p :: rest) = unlockedOppCount b team rest := by
                unfold unlockedOppCount; rw [List.countP_cons]; simp [h1, hf]
              have hexe : HasLockedOpp b team (p :: rest) ↔ HasLockedOpp b team rest := by
                rw [hex]; simp [h1, hteam]
              have e1 : (if True then (1 : Nat) else 2) = 1 := rfl
              have e2 : (if (false : Bool) = true then (1 : Nat) else 2) = 2 := rfl
              have e3 : (if True then (0 : Nat)
                  else lockedOwnCount b team rest) = 0 := rfl
              have e4 : (if (false : Bool) = true then (0 : Nat)
                  else lockedOwnCount b team rest + 1) = lockedOwnCount b team rest + 1 := rfl
              rw [hred, ih]
              simp only [hexe, hcc, hlo, huo, hup]
              rw [e1, e3, e2, e4]
              by_cases hcond : HasLockedOpp b team rest ∨ 1 ≤ lockedOwnCount b team rest
              · rw [if_pos hcond, if_pos (by
                  rcases hcond with h | h
                  · exact Or.inl h
                  · exact Or.inr (by omega))]
              · rw [if_neg hcond, if_neg (by
                  rintro (h | h)
                  · exact hcond (Or.inl h)
                  · exact hcond (Or.inr (by omega)))]
                obtain ⟨h1, h2⟩ := not_or.mp hcond
                have hc0 : lockedOwnCount b team rest = 0 := by omega
                rw [hc0]
                have hval : comp + 1 + cornerCount rest + unlockedOwnCount b team rest + 0 =
                    comp + cornerCount rest + unlockedOwnCount b team rest + (0 + 1) := by omega
                rw [hval]
            | true =>
              have hred : sequence_completion_go b team (p :: rest) comp oer true = none := by
                simp only [sequence_completion_go, Board.getpos, hc, h1, hf]
                simp [hteam]
              have hlo : lockedOwnCount b team (p :: rest) = lockedOwnCount b team rest + 1 := by
                unfold lockedOwnCount; rw [List.countP_cons]; simp [hc, h1, hteam, hf]
              rw [hred, if_pos]
              right
              rw [hlo]
              have e1 : (if (true : Bool) = true then (1 : Nat) else 2) = 1 := rfl
              rw [e1]
              omega
          · have hred : ∀ sh : Bool, sequence_completion_go b team (p :: rest) comp oer sh = none := by
              intro sh
              simp only [sequence_completion_go, Board.getpos, hc, h1, hf]
              simp [hteam]
            rw [hred, if_pos]
            left
            exact hex.mpr (Or.inl ⟨hpc, chip, h1, hf, hteam⟩)
        | false =>
          by_cases hteam : chip.team = team
          · have hred : sequence_completion_go b team (p :: rest) comp oer shared =
                sequence_completion_go b team rest (comp + 1) oer shared := by
              simp only [sequence_completion_go, Board.getpos, hc, h1, hf]
              simp [hteam]
            have hcc : cornerCount (p :: rest) = cornerCount rest := by
              unfold cornerCount; rw [List.countP_cons]; simp [hc]
            have hlo : lockedOwnCount b team (p :: rest) = lockedOwnCount b team rest := by
              unfold lockedOwnCount; rw [List.countP_cons]; simp [h1, hf]
            have huo : unlockedOwnCount b team (p :: rest) = unlockedOwnCount b team rest + 1 := by
              unfold unlockedOwnCount; rw [List.countP_cons]; simp [hc, h1, hteam, hf]
            have hup : unlockedOppCount b team (p :: rest) = unlockedOppCount b team rest := by
              unfold unlockedOppCount; rw [List.countP_cons]; simp [h1, hteam]
            have hexe : HasLockedOpp b team (p :: rest) ↔ HasLockedOpp b team rest := by
              rw [hex]; simp [h1, hf]
            rw [hred, ih]
            simp only [hexe, hcc, hlo, huo, hup]
            by_cases hcond : HasLockedOpp b team rest ∨
                (if shared then 1 else 2) ≤ lockedOwnCount b team rest
            · rw [if_pos hcond, if_pos hcond]
            · rw [if_neg hcond, if_neg hcond]
              have hval : comp + 1 + cornerCount rest + unlockedOwnCount b team rest =
                  comp + cornerCount rest + (unlockedOwnCount b team rest + 1) := by omega
              rw [hval]
          · have hred : sequence_completion_go b team (p :: rest) comp oer shared =
                sequence_completion_go b team rest comp (oer + 1) shared := by
              simp only [sequence_completion_go, Board.getpos, hc, h1, hf]
              simp [hteam]
            have hcc : cornerCount (p :: rest) = cornerCount rest := by
              unfold cornerCount; rw [List.countP_cons]; simp [hc]
            have hlo : lockedOwnCount b team (p :: rest) = lockedOwnCount b team rest := by
              unfold lockedOwnCount; rw [List.countP_cons]; simp [h1, hf]
            have huo : unlockedOwnCount b team (p :: rest) = unlockedOwnCount b team rest := by
              unfold unlockedOwnCount; rw [List.countP_cons]; simp [h1, hteam]
            have hup : unlockedOppCount b team (p :: rest) = unlockedOppCount b team rest + 1 := by
              unfold unlockedOppCount; rw [List.countP_cons]; simp [hc, h1, hteam, hf]
            have hexe : HasLockedOpp b team (p :: rest) ↔ HasLockedOpp b team rest := by
              rw [hex]; simp [h1, hf]
            rw [hred, ih]
            simp only [hexe, hcc, hlo, huo, hup]
            by_cases hcond : HasLockedOpp b team rest ∨
                (if shared then 1 else 2) ≤ lockedOwnCount b team rest
            · rw [if_pos hcond, if_pos hcond]
            · rw [if_neg hcond, if_neg hcond]
              have hval : oer + 1 + unlockedOppCount b team rest =
                  oer + (unlockedOppCount b team rest + 1) := by omega
              rw [hval]

/-- C9: `sequence_completion` walks the sequence adding 1 to completion
for every corner cell unconditionally, nothing for an empty cell, 1 for
the first locked own-team chip, 1 for every unlocked own-team chip, and
one required one-eyed per unlocked opposing chip; it returns `none`
(impossible) exactly when some non-corner member holds a locked opposing
chip or a second locked own-team chip appears. -/
theorem c9_sequence_completion (seq : List Pos) (b : Board) (team : Team) :
    sequence_completion seq b team =
      if HasLockedOpp b team seq ∨ 2 ≤ lockedOwnCount b team seq then none
      else some (cornerCount seq + unlockedOwnCount b team seq + lockedOwnCount b team seq,
        unlockedOppCount b team seq) := by
  unfold sequence_completion
  rw [sequence_completion_go_spec]
  have e2 : (if (false : Bool) = true then (1 : Nat) else 2) = 2 := rfl
  have e4 : (if (false : Bool) = true then (0 : Nat) else lockedOwnCount b team seq) =
      lockedOwnCount b team seq := rfl
  rw [e2, e4]
  by_cases hcond : HasLockedOpp b team seq ∨ 2 ≤ lockedOwnCount b team seq
  · rw [if_pos hcond, if_pos hcond]
  · rw [if_neg hcond, if_neg hcond]
    have hval : 0 + cornerCount seq + unlockedOwnCount b team seq =
        cornerCount seq + unlockedOwnCount b team seq := by omega
    rw [hval]
    have hval2 : (0 : Nat) + unlockedOppCount b team seq = unlockedOppCount b team seq := by
      omega
    rw [hval2]

/-! ### Legality of enumeration matches legality of application -/

theorem put_chip_ok_iff (b : Board) (card : String) (pos : Pos) (team : Team) :
    (∃ b', b.put_chip card pos team = .ok b') ↔
      posCard pos ≠ BoardCell.corn ∧ card ∉ ONE_EYEDS ∧ b.chipAt pos = none ∧
        (posCard pos = BoardCell.card card ∨ card ∈ TWO_EYEDS ∨ card = "JJ") := by
  unfold Board.put_chip
  by_cases h1 : posCard pos = BoardCell.corn
  · simp [h1]
  · rw [if_neg h1]
    by_cases h2 : card ∈ ONE_EYEDS
    · simp [h1, h2]
    · rw [if_neg h2]
      by_cases h3 : (b.chipAt pos).isSome = true
      · have : b.chipAt pos ≠ none := by
          cases ho : b.chipAt pos
          · rw [ho] at h3; simp at h3
          · intro hcc; cases hcc
        simp [h3, this]
      · have hnone : b.chipAt pos = none := by
          cases ho : b.chipAt pos
          · rfl
          · rw [ho] at h3; simp at h3
        rw [if_neg h3]
        by_cases h4 : ¬(card ∈ TWO_EYEDS ∨ card = "JJ") ∧ BoardCell.card card ≠ posCard pos
        · rw [if_pos h4]
          simp only [h1, h2, hnone]
          constructor
          · rintro ⟨b', hb'⟩; cases hb'
          · rintro ⟨-, -, -, (hm | hw)⟩
            · exact absurd hm.symm h4.2
            · exact absurd hw h4.1
        · rw [if_neg h4]
          rw [not_and_or, not_not] at h4
          constructor
          · rintro ⟨b', -⟩
            refine ⟨h1, h2, hnone, ?_⟩
            rcases h4 with hw | hm
            · rcases hw with hw | hw
              · exact Or.inr (Or.inl hw)
              · exact Or.inr (Or.inr hw)
            · rw [not_ne_iff] at hm
              exact Or.inl hm.symm
          · intro h
            exact ⟨_, rfl⟩

theorem remove_chip_ok_iff (b : Board) (card : String) (pos : Pos) (team : Team) :
    (∃ b', b.remove_chip card pos team = .ok b') ↔
      (∃ chip, b.chipAt pos = some chip ∧ chip.team ≠ team ∧ chip.flipped = false) ∧
        (card = "JJ" ∨ card ∈ ONE_EYEDS) := by
  unfold Board.remove_chip
  cases ho : b.chipAt pos with
  | none =>
    simp only [ho]
    constructor
    · rintro ⟨b', hb'⟩; cases hb'
    · rintro ⟨⟨chip, hchip, -⟩, -⟩; cases hchip
  | some chip =>
    simp only [ho]
    by_cases h1 : chip.flipped = true
    · rw [if_pos h1]
      constructor
      · rintro ⟨b', hb'⟩; cases hb'
      · rintro ⟨⟨chip', hchip', -, hfl'⟩, -⟩
        rw [Option.some.injEq] at hchip'
        rw [← hchip'] at hfl'
        rw [h1] at hfl'
        cases hfl'
    · rw [if_neg h1]
      by_cases h2 : chip.team = team
      · rw [if_pos h2]
        constructor
        · rintro ⟨b', hb'⟩; cases hb'
        · rintro ⟨⟨chip', hchip', hne', -⟩, -⟩
          rw [Option.some.injEq] at hchip'
          rw [← hchip'] at hne'
          exact absurd h2 hne'
      · rw [if_neg h2]
        by_cases h3 : card ≠ "JJ" ∧ card ∉ ONE_EYEDS
        · rw [if_pos h3]
          constructor
          · rintro ⟨b', hb'⟩; cases hb'
          · rintro ⟨-, (hjj | hone)⟩
            · exact absurd hjj h3.1
            · exact absurd hone h3.2
        · rw [if_neg h3]
          rw [not_and_or, not_not] at h3
          constructor
          · rintro ⟨b', -⟩
            refine ⟨⟨chip, rfl, h2, Bool.not_eq_true _ ▸ h1⟩, ?_⟩
            rcases h3 with h | h
            · exact Or.inl h
            · rw [not_not] at h
              exact Or.inr h
          · intro h
            exact ⟨_, rfl⟩

theorem place_move_mem_iff (b : Board) (card : String) (team : Team) (pos : Pos) :
    (card, MoveType.PLACE_CHIP, pos) ∈ b.iter_moves card team ↔
      card ∉ ONE_EYEDS ∧ pos.1 < 10 ∧ pos.2 < 10 ∧ b.chipAt pos = none ∧
        posCard pos ≠ BoardCell.corn ∧
        (posCard pos = BoardCell.card card ∨ card ∈ TWO_EYEDS ∨ card = "JJ") := by
  rw [mem_iter_moves_iff]
  constructor
  · rintro (⟨_, pos', _, _, _, heq⟩ | ⟨hno, pos', h1, h2, h3, h4, h5, heq⟩)
    · simp at heq
    · simp only [Prod.mk.injEq] at heq
      obtain ⟨-, -, rfl⟩ := heq
      exact ⟨hno, h1, h2, h3, h4, h5⟩
  · rintro ⟨hno, h1, h2, h3, h4, h5⟩
    exact Or.inr ⟨hno, pos, h1, h2, h3, h4, h5, rfl⟩

theorem remove_move_mem_iff (b : Board) (card : String) (team : Team) (pos : Pos) :
    (card, MoveType.REMOVE_CHIP, pos) ∈ b.iter_moves card team ↔
      (card ∈ ONE_EYEDS ∨ card = "JJ") ∧ pos.1 < 10 ∧ pos.2 < 10 ∧
        ∃ chip, b.chipAt pos = some chip ∧ chip.team ≠ team ∧ chip.flipped = false := by
  rw [mem_iter_moves_iff]
  constructor
  · rintro (⟨hcard, pos', h1, h2, h3, heq⟩ | ⟨_, pos'', _, _, _, _, _, heq⟩)
    · simp only [Prod.mk.injEq] at heq
      obtain ⟨-, -, rfl⟩ := heq
      exact ⟨hcard, h1, h2, h3⟩
    · simp at heq
  · rintro ⟨hcard, h1, h2, h3⟩
    exact Or.inl ⟨hcard, pos, h1, h2, h3, rfl⟩

/-- C10: a PLACE move is yielded by `iter_moves` exactly at the in-range
positions where `put_chip` succeeds for that card and team, and a REMOVE
move exactly at the in-range positions where `remove_chip` succeeds. -/
theorem c10_moves_match_application (b : Board) (card : String) (team : Team) (pos : Pos) :
    ((card, MoveType.PLACE_CHIP, pos) ∈ b.iter_moves card team ↔
      pos.1 < 10 ∧ pos.2 < 10 ∧ ∃ b', b.put_chip card pos team = .ok b') ∧
    ((card, MoveType.REMOVE_CHIP, pos) ∈ b.iter_moves card team ↔
      pos.1 < 10 ∧ pos.2 < 10 ∧ ∃ b', b.remove_chip card pos team = .ok b') := by
  constructor
  · rw [place_move_mem_iff, put_chip_ok_iff]
    constructor
    · rintro ⟨hno, h1, h2, h3, h4, h5⟩
      exact ⟨h1, h2, h4, hno, h3, h5⟩
    · rintro ⟨h1, h2, h4, hno, h3, h5⟩
      exact ⟨hno, h1, h2, h3, h4, h5⟩
  · rw [remove_move_mem_iff, remove_chip_ok_iff]
    constructor
    · rintro ⟨hcard, h1, h2, h3⟩
      refine ⟨h1, h2, h3, ?_⟩
      rcases hcard with h | h
      · exact Or.inr h
      · exact Or.inl h
    · rintro ⟨h1, h2, h3, hcard⟩
      refine ⟨?_, h1, h2, h3⟩
      rcases hcard with h | h
      · exact Or.inr h
      · exact Or.inl h
